import Mathlib

/-!
Verification of the vigor documentation engine (Go) against its
natural-language specification.  The definitions below are shallow
embeddings of the Go source; machine integers are modelled as `Int`
with Go's truncated division (`Int.div` / `Int.mod`), byte buffers as
`List Char`, Go maps as association lists, and fallible operations
return `Option`.
-/

namespace Vigor

/-! ## PositionCodec

Embeds `position`, `position.line`, `position.column`, `newPosition`
from `src/src/doc/doc_test.go` lines 189-202 (identical in
`src/unnamed/part_006` lines 36-49).  Go's `/` and `%` on `int`
truncate toward zero, which is exactly `Int.div` / `Int.mod`. -/

-- Go's `type position int` encodes a line and column as one integer;
-- the model uses `Int` directly, with the accessors below.

/-- Go: `func (p position) line() int { return int(p / 10000) }`
(Go `/` truncates toward zero, i.e. `Int.tdiv`). -/
def position.line (p : Int) : Int := Int.tdiv p 10000

/-- Go: `func (p position) column() int { return int(p % 10000) }`
(Go `%` truncates toward zero, i.e. `Int.tmod`). -/
def position.column (p : Int) : Int := Int.tmod p 10000

/-- Go: `func newPosition(line, column int) position { return position(line*10000 + column) }` -/
def newPosition (line column : Int) : Int := line * 10000 + column

/-! ## FoldTracker

Embeds `Doc.PushFold` / `Doc.PopFold` from `src/src/doc/doc_test.go`
lines 77-94.  The fold stack holds start positions; `PopFold` reads the
current output position, possibly decrements the end line, and retains
the fold only if `lend > lstart`.  Popping an empty stack is a Go index
panic, modelled as `none`. -/

/-- Fold state of a `Doc`: the construction-time stack plus the
retained fold list `(start line, end line)`. -/
structure FoldState where
  foldStack : List Int
  folds : List (Int × Int)
deriving Repr, DecidableEq

/-- Go `Doc.PushFold`: record the current output position on the stack. -/
def pushFold (st : FoldState) (cur : Int) : FoldState :=
  { st with foldStack := cur :: st.foldStack }

/-- Go `Doc.PopFold` with current output position `cur`: pop the start,
compute `lend` (decremented when the end column is 1), and append the
fold only when `lend > lstart`. -/
def popFold (st : FoldState) (cur : Int) : Option FoldState :=
  match st.foldStack with
  | [] => none
  | start :: rest =>
      let lstart := position.line start
      let lend0 := position.line cur
      let lend := if position.column cur = 1 then lend0 - 1 else lend0
      if lend > lstart then
        some { foldStack := rest, folds := st.folds ++ [(lstart, lend)] }
      else
        some { foldStack := rest, folds := st.folds }

/-! ## ScopeStack

Embeds `Doc.push` / `Doc.pop` from `src/src/doc/doc_test.go` lines
138-159 (the same algorithm as `docPrinter.pushHighlight` /
`docPrinter.popHighlight` in `src/unnamed/part_006` lines 514-535).
The stack is generic over the frame payload (`highlight` group or
`link` target); `appendCopy` is modelled by appending an emitted record
to `out`.  The current output address (`outputPosition`, nondecreasing
as text is appended) is modelled as a `Nat` advanced by `write`
events.  `hist` is a ghost trace recording, for every write performed
while the stack is non-empty, the span written and the value that was
topmost during that span; it does not influence `out` or the stack.
Note the Go `push` reads the old top frame via a copy `e :=
(*stack)[n-1]` and never writes its `start` back; only `pop` updates
the start of the frame below.  The model reproduces this exactly. -/

/-- One emitted range record (`appendCopy`): `{start, end, value}`.
The Go field `end` is a Lean keyword, so it is named `stop`. -/
structure ScopeRec (α : Type) where
  start : Nat
  stop : Nat
  value : α
deriving Repr, DecidableEq

/-- Construction-time scope-stack state: current output address, the
stack of `stackElement{start, value}` (top first), the emitted records,
and the ghost write history. -/
structure ScopeState (α : Type) where
  addr : Nat
  stack : List (Nat × α)
  out : List (ScopeRec α)
  hist : List (ScopeRec α)
deriving Repr, DecidableEq

/-- A construction event: `Doc.push`, `Doc.pop`, or appending `n`
bytes of text (which advances `outputPosition`). -/
inductive ScopeEvent (α : Type) where
  | push : α → ScopeEvent α
  | pop : ScopeEvent α
  | write : Nat → ScopeEvent α
deriving Repr, DecidableEq

/-- One step of the Go code.  `push`: if the stack is non-empty and the
top frame's start differs from the current address, emit a record for
the top frame (without updating its start — the Go code reads a copy);
then push a new frame.  `pop`: pop the top frame, emit its record if
its span is non-empty, and set the new top frame's start to the current
address.  `pop` on an empty stack is a Go slice-index panic, modelled
as `none`. -/
def scopeStep {α : Type} (st : ScopeState α) : ScopeEvent α → Option (ScopeState α)
  | .push v =>
    match st.stack with
    | [] => some { st with stack := [(st.addr, v)] }
    | (s, w) :: rest =>
        if s ≠ st.addr then
          some { st with out := st.out ++ [⟨s, st.addr, w⟩],
                         stack := (st.addr, v) :: (s, w) :: rest }
        else
          some { st with stack := (st.addr, v) :: (s, w) :: rest }
  | .pop =>
    match st.stack with
    | [] => none
    | (s, w) :: rest =>
        some { st with
          out := if s ≠ st.addr then st.out ++ [⟨s, st.addr, w⟩] else st.out,
          stack := match rest with
            | [] => []
            | (_, w2) :: r => (st.addr, w2) :: r }
  | .write n =>
    some { addr := st.addr + n,
           stack := st.stack,
           out := st.out,
           hist := match st.stack with
             | [] => st.hist
             | (_, w) :: _ => st.hist ++ [⟨st.addr, st.addr + n, w⟩] }

/-- Run a sequence of events; `none` if any `pop` is unmatched. -/
def runScope {α : Type} : ScopeState α → List (ScopeEvent α) → Option (ScopeState α)
  | st, [] => some st
  | st, e :: es =>
    match scopeStep st e with
    | none => none
    | some st' => runScope st' es

/-- The state of a fresh `Doc`: address 0, empty stack, nothing emitted. -/
def initScope {α : Type} : ScopeState α := ⟨0, [], [], []⟩

/-- Point lookup in a record list: the value of the first record whose
half-open span `[start, stop)` contains `a`. -/
def rlookup {α : Type} (rs : List (ScopeRec α)) (a : Nat) : Option α :=
  match rs with
  | [] => none
  | r :: rs => if r.start ≤ a ∧ a < r.stop then some r.value else rlookup rs a

/-- Non-strict chaining of spans above a lower bound: each record
starts no earlier than the bound / the previous record's stop. -/
def SpanChain {α : Type} : Nat → List (ScopeRec α) → Prop
  | _, [] => True
  | lo, r :: rs => lo ≤ r.start ∧ r.start ≤ r.stop ∧ SpanChain r.stop rs

/-- The stop of the last span, or the lower bound for an empty list. -/
def spanEnd {α : Type} (lo : Nat) (rs : List (ScopeRec α)) : Nat :=
  rs.foldl (fun _ r => r.stop) lo

/-- The start of the top stack frame, or the current address when the
stack is empty. -/
def topBound {α : Type} (st : ScopeState α) : Nat :=
  match st.stack with
  | [] => st.addr
  | (s, _) :: _ => s

/-- Invariant tying the emitted records, the ghost history and the
stack together during construction. -/
structure ScopeInv {α : Type} (st : ScopeState α) : Prop where
  outChain : SpanChain 0 st.out
  outStrict : ∀ r ∈ st.out, r.start < r.stop
  histChain : SpanChain 0 st.hist
  histEnd : spanEnd 0 st.hist ≤ st.addr
  outEnd_le : spanEnd 0 st.out ≤ topBound st
  top_le : topBound st ≤ st.addr
  lookupEq : ∀ a, rlookup st.hist a =
    match st.stack with
    | [] => rlookup st.out a
    | (s, v) :: _ =>
        if s ≤ a ∧ a < st.addr then some v else rlookup st.out a

/-- The payload of a link frame, from the `link` struct of
`src/src/doc/doc_test.go` lines 204-214: the interned index of the
target file path and the target position.  `appendCopy` (lines
216-218) copies these two fields into each emitted link record. -/
structure linkTarget where
  path : Nat
  address : Int
deriving Repr, DecidableEq

/-! ## StringTable

Embeds `Doc.stringIndex` from `src/src/doc/doc_test.go` lines 161-169
(identical to `docPrinter.stringIndex` in `src/unnamed/part_006` lines
554-562).  The Go map `d.index` is modelled as an association list
(Go maps have unique keys, so lookup is order-independent);
`d.data.strings` is the interned table.  `stringIndex` and the strings
slice are the only writers of either field in the source. -/

/-- The interning state of one document: the Go map `index` and the
slice `strings`. -/
structure InternState where
  index : List (String × Nat)
  strings : List String
deriving Repr, DecidableEq

/-- Go map lookup `d.index[s]`. -/
def lookupIndex : List (String × Nat) → String → Option Nat
  | [], _ => none
  | (k, i) :: rest, s => if k = s then some i else lookupIndex rest s

/-- Go `Doc.stringIndex`: return the existing index, or insert the
string with index `len(d.index)` and append it to the strings table. -/
def stringIndex (st : InternState) (s : String) : Nat × InternState :=
  match lookupIndex st.index s with
  | some i => (i, st)
  | none =>
      (st.index.length,
       { index := st.index ++ [(s, st.index.length)],
         strings := st.strings ++ [s] })

/-- A fresh `Doc`'s interning state (`NewDoc`). -/
def initIntern : InternState := ⟨[], []⟩

/-- The state after an arbitrary sequence of `stringIndex` calls. -/
def runIntern (calls : List String) : InternState :=
  calls.foldl (fun st s => (stringIndex st s).2) initIntern

/-- The enumeration `[(l₀, k), (l₁, k+1), …]` of a string list starting
at `k`; the reachable contents of the Go `index` map. -/
def enumStringsFrom : Nat → List String → List (String × Nat)
  | _, [] => []
  | k, s :: rest => (s, k) :: enumStringsFrom (k + 1) rest

/-- Well-formedness of an interning state: the map is exactly the
enumeration of the strings table, which has no duplicates. -/
def InternWF (st : InternState) : Prop :=
  st.index = enumStringsFrom 0 st.strings ∧ st.strings.Nodup

/-! ## LinkIndex and DocumentManager

Embeds `Manager.findLink`, `Manager.onJump`, `Manager.onUpdateHighlight`
and `Manager.onBufDelete` from `src/src/doc/doc_test.go` lines 244-344
(the same logic as `findLink` / `onJump` / `onUpdateHighlight` in
`src/unnamed/part_006` lines 975-1071).  Buffers and windows are Go
ints; the two registries are modelled as association lists.  Vim RPC
side effects are modelled as emitted call descriptions. -/

/-- A finished link record (`link` struct, doc_test.go lines 204-214).
The Go field `end` is a Lean keyword, so it is named `stop`. -/
structure Link where
  start : Int
  stop : Int
  path : Nat
  address : Int
deriving Repr, DecidableEq

/-- Go's `sort.Search` bisection loop
`i, j := 0, n; for i < j { h := (i+j)/2; if f(h) { j = h } else { i = h+1 } }; return i`,
written with explicit fuel (`j - i` shrinks every iteration, so `n`
iterations always suffice). -/
def searchLoop (f : Nat → Bool) : Nat → Nat → Nat → Nat
  | 0, i, _ => i
  | fuel + 1, i, j =>
    if i < j then
      let m := (i + j) / 2
      if f m then searchLoop f fuel i m else searchLoop f fuel (m + 1) j
    else i

/-- Go `sort.Search(n, f)`. -/
def sortSearch (n : Nat) (f : Nat → Bool) : Nat := searchLoop f n 0 n

/-- The search part of `Manager.findLink` (doc_test.go lines 332-343):
binary-search for the first link whose `end` exceeds the encoded
cursor position, then guard on the found link's start line.
`sort.Search` only evaluates the predicate below the list length, so
the default record of `getD` is never consulted. -/
def findLinkIn (links : List Link) (line col : Int) : Option Link :=
  let p := newPosition line col
  let i := sortSearch links.length
    (fun i => decide ((links.getD i ⟨0, 0, 0, 0⟩).stop > p))
  if h : i < links.length then
    let l := links.get ⟨i, h⟩
    if position.line l.start ≠ line then none else some l
  else none

/-- Strict chaining of a link list: each link is non-empty and starts
no earlier than the previous link's end (the construction invariant of
`Doc.pop`, cf. `linkStack_invariant`). -/
def LinkChain : Int → List Link → Prop
  | _, [] => True
  | lo, l :: ls => lo ≤ l.start ∧ l.start < l.stop ∧ LinkChain l.stop ls

/-- The per-buffer interaction data (`data` struct, doc_test.go lines
183-187): interned strings and the address-sorted link list. -/
structure data where
  strings : List String
  links : List Link
deriving Repr, DecidableEq

/-- A window's active underline overlay (`windowHighlight`,
doc_test.go lines 239-242). -/
structure windowHighlight where
  id : Int
  link : Link
deriving Repr, DecidableEq

/-- The `Manager` registries: `docs : map[int]*data` and
`highlights : map[nvim.Window]*windowHighlight`, as association
lists keyed by Go ints. -/
structure ManagerState where
  docs : List (Int × data)
  highlights : List (Int × windowHighlight)
deriving Repr, DecidableEq

/-- Go map read `m[k]`. -/
def lookupMap {β : Type} : List (Int × β) → Int → Option β
  | [], _ => none
  | (k, v) :: rest, b => if k = b then some v else lookupMap rest b

/-- Go map `delete(m, k)`. -/
def removeMap {β : Type} (m : List (Int × β)) (b : Int) : List (Int × β) :=
  m.filter (fun p => !(p.1 == b))

/-- Go `Manager.findLink` (doc_test.go lines 325-344): registry lookup
followed by the link search. -/
def findLink (st : ManagerState) (b line col : Int) : Option (data × Link) :=
  match lookupMap st.docs b with
  | none => none
  | some d =>
      match findLinkIn d.links line col with
      | none => none
      | some l => some (d, l)

/-- Go `Manager.onBufDelete` (doc_test.go lines 259-263). -/
def onBufDelete (st : ManagerState) (b : Int) : ManagerState :=
  { st with docs := removeMap st.docs b }

/-- A navigation command issued by `onJump` (the `edit`/`call cursor`
command strings built with `fmt.Sprintf`). -/
inductive NavCmd where
  | edit (path : String)
  | cursorAt (line col : Int)
  | cursorAnchor (name : String)
deriving Repr, DecidableEq

/-- Go `Manager.onJump` (doc_test.go lines 265-283).  `some cmds` is a
normal return issuing `cmds` (possibly none); `none` models the Go
panic of an out-of-range `d.strings` index. -/
def onJump (st : ManagerState) (b line col : Int) : Option (List NavCmd) :=
  match findLink st b line col with
  | none => some []
  | some (d, link) =>
      match d.strings[link.path]? with
      | none => none
      | some pstr =>
          let cmds : List NavCmd :=
            if pstr ≠ "" then [NavCmd.edit pstr] else []
          let l := position.line link.address
          let c := position.column link.address
          if l > 0 then
            some (cmds ++ [NavCmd.cursorAt l c])
          else if c ≥ 0 then
            match d.strings[c.toNat]? with
            | none => none
            | some anchor => some (cmds ++ [NavCmd.cursorAnchor anchor])
          else
            some cmds

/-- A Vim overlay call issued by `onUpdateHighlight` (`matchdelete` /
`matchaddpos`). -/
inductive OverlayCall where
  | matchdelete (id : Int)
  | matchaddpos (line col len : Int)
deriving Repr, DecidableEq

/-- Go `Manager.onUpdateHighlight` (doc_test.go lines 285-323) for
current window `w`; `newId` is the match id that `matchaddpos` would
assign.  Returns the new state and the overlay calls issued.  The Go
code compares the old and new link by pointer; the model compares the
`Option Link` values, which coincides with pointer comparison whenever
one side is nil — the only cases the theorems below use. -/
def onUpdateHighlight (st : ManagerState) (b line col w newId : Int) :
    ManagerState × List OverlayCall :=
  let newLink := (findLink st b line col).map (fun dl => dl.2)
  let hl := lookupMap st.highlights w
  let oldLink := hl.map (fun h => h.link)
  if oldLink = newLink then (st, [])
  else
    let st1 : ManagerState :=
      match hl with
      | none => st
      | some _ => { st with highlights := removeMap st.highlights w }
    let calls1 : List OverlayCall :=
      match hl with
      | none => []
      | some h => [OverlayCall.matchdelete h.id]
    match newLink with
    | none => (st1, calls1)
    | some nl =>
        ({ st1 with highlights := st1.highlights ++ [(w, ⟨newId, nl⟩)] },
         calls1 ++ [OverlayCall.matchaddpos (position.line nl.start)
           (position.column nl.start) (nl.stop - nl.start)])

/-! ## DeclarationAnnotator and TokenAnnotationMerger

Embeds the annotation model (`src/unnamed/part_006` lines 203-216),
the expression cases of `declVisitor.Visit` (lines 642-757) and the
token/annotation merge loop of `docPrinter.printDecl` (lines 218-292).
The pretty-printed declaration `buf` is a byte (char) list; the
`go/scanner` token stream is a list of `(offset, literal, kind)`
records whose consistency with `buf` is the `tokOk` predicate. -/

/-- Annotation kinds (`noAnnotation` … `endLinkAnnotation` constants,
part_006 lines 203-210). -/
inductive AnnotKind where
  | noAnnot
  | anchorAnnot
  | packageLinkAnnot
  | linkAnnot
  | startLinkAnnot
  | endLinkAnnot
deriving Repr, DecidableEq

/-- One annotation (`annotation` struct, part_006 lines 212-216):
kind, data (an import path or anchor qualifier) and a source position
(used only by the anchor case). -/
structure Annot where
  kind : AnnotKind
  data : String
  pos : Int
deriving Repr, DecidableEq

/-- The token kinds the merge loop distinguishes: `token.IDENT`,
`token.COMMENT`, and every other token (the switch's silent default).
`token.EOF` is the end of the token list. -/
inductive TokKind where
  | ident
  | comment
  | other
deriving Repr, DecidableEq

/-- One scanned token: byte offset into `buf` (`int(pos) - base`),
literal text and kind. -/
structure Tok where
  offset : Nat
  lit : List Char
  kind : TokKind
deriving Repr, DecidableEq

/-- Consistency of a token stream with the printed buffer: offsets are
nondecreasing starting from the current `lastOffset`, stay in bounds,
and each literal is exactly the text of `buf` at its offset. -/
def tokOk : Nat → List Char → List Tok → Bool
  | _, _, [] => true
  | lo, buf, t :: rest =>
      decide (lo ≤ t.offset) &&
      decide (t.offset + t.lit.length ≤ buf.length) &&
      decide (t.lit = (buf.take (t.offset + t.lit.length)).drop t.offset) &&
      tokOk (t.offset + t.lit.length) buf rest

/-- One emitted piece of the merged declaration text: a raw text span
(`p.buf.Write(buf[lastOffset:offset])` and the trailing
`p.buf.Write(buf[lastOffset:])`), a comment token wrapped in its own
highlight scope, or an identifier token decorated according to the
annotation it consumed (every branch of the Go switch writes the
literal exactly once). -/
inductive Chunk where
  | text (s : List Char)
  | comment (lit : List Char)
  | ident (a : Annot) (lit : List Char)
deriving Repr, DecidableEq

/-- The scan loop of `docPrinter.printDecl` (part_006 lines 240-290):
walk the token stream; comments are emitted in a comment highlight
scope and consume no annotation; each identifier consumes the head
annotation, and an identifier arriving with an empty annotation queue
(`// Oops!`) breaks the loop; on exit the remaining text
`buf[lastOffset:]` is written raw.  Returns the emitted chunks and the
unconsumed annotations. -/
def mergeLoop (buf : List Char) :
    List Tok → List Annot → Nat → List Chunk → List Chunk × List Annot
  | [], anns, lastOffset, acc =>
      (acc ++ [Chunk.text (buf.drop lastOffset)], anns)
  | ⟨off, lit, TokKind.comment⟩ :: rest, anns, lastOffset, acc =>
      mergeLoop buf rest anns (off + lit.length)
        (acc ++ [Chunk.text ((buf.take off).drop lastOffset),
                 Chunk.comment lit])
  | ⟨_, _, TokKind.ident⟩ :: _, [], lastOffset, acc =>
      (acc ++ [Chunk.text (buf.drop lastOffset)], [])
  | ⟨off, lit, TokKind.ident⟩ :: rest, a :: anns2, lastOffset, acc =>
      mergeLoop buf rest anns2 (off + lit.length)
        (acc ++ [Chunk.text ((buf.take off).drop lastOffset),
                 Chunk.ident a lit])
  | ⟨_, _, TokKind.other⟩ :: rest, anns, lastOffset, acc =>
      mergeLoop buf rest anns lastOffset acc

/-- The whole merge of one declaration. -/
def mergeDecl (buf : List Char) (toks : List Tok) (anns : List Annot) :
    List Chunk × List Annot :=
  mergeLoop buf toks anns 0 []

/-- The plain text carried by a chunk list (each chunk contributes its
literal exactly once). -/
def chunkText : List Chunk → List Char
  | [] => []
  | Chunk.text s :: rest => s ++ chunkText rest
  | Chunk.comment s :: rest => s ++ chunkText rest
  | Chunk.ident _ s :: rest => s ++ chunkText rest

/-- The annotations consumed by the identifier chunks, in emission
order. -/
def identAnns : List Chunk → List Annot
  | [] => []
  | Chunk.text _ :: rest => identAnns rest
  | Chunk.comment _ :: rest => identAnns rest
  | Chunk.ident a _ :: rest => a :: identAnns rest

/-- The number of identifier tokens in a stream. -/
def identCount : List Tok → Nat
  | [] => 0
  | t :: rest =>
      (if t.kind = TokKind.ident then 1 else 0) + identCount rest

/-- The `predeclared` classification table (part_006 lines 576-626). -/
def notPredeclared : Nat := 0

def predeclaredType : Nat := 1

def predeclaredConstant : Nat := 2

def predeclaredFunction : Nat := 3

def predeclared (s : String) : Nat :=
  match s with
  | "bool" | "byte" | "complex128" | "complex64" | "error" | "float32"
  | "float64" | "int16" | "int32" | "int64" | "int8" | "int" | "rune"
  | "string" | "uint16" | "uint32" | "uint64" | "uint8" | "uint"
  | "uintptr" => predeclaredType
  | "true" | "false" | "iota" | "nil" => predeclaredConstant
  | "append" | "cap" | "close" | "complex" | "copy" | "delete" | "imag"
  | "len" | "make" | "new" | "panic" | "print" | "println" | "real"
  | "recover" => predeclaredFunction
  | _ => notPredeclared

/-- Go `ast.IsExported`: the first rune is upper-case
(`unicode.IsUpper` approximated by `Char.isUpper`; the claims below do
not depend on non-ASCII names). -/
def isExported (name : String) : Bool :=
  match name.data with
  | [] => false
  | c :: _ => c.isUpper

/-- The expression sublanguage walked by `declVisitor.Visit`
(part_006 lines 642-757), with name resolution baked into the nodes:
`ident` carries whether `n.Obj` is non-nil; `pkgSelector` is a
selector whose left operand is an identifier resolved to an imported
package (`Obj.Kind == Pkg`, import spec unquotes to `importPath`; the
node also records `x.End()` and `Sel.Pos()`); `selectorOther` is any
other selector; `node` is every other node kind, walked structurally. -/
inductive GoExpr where
  | ident (name : String) (hasObj : Bool)
  | pkgSelector (importPath : String) (xEnd selPos : Int) (selName : String)
  | selectorOther (x : GoExpr) (selName : String)
  | basicLit (isString : Bool) (value : String)
  | compositeLit (typ : Option GoExpr) (elts : List GoExpr)
  | node (children : List GoExpr)
deriving Repr

mutual

/-- Go `declVisitor.Visit` combined with `ast.Walk` on the expression
sublanguage: returns the annotations and elision comments produced, in
visit order. -/
def visitExpr : GoExpr → List Annot × List String
  | GoExpr.ident name hasObj =>
      if ¬hasObj ∧ predeclared name ≠ notPredeclared then
        ([⟨AnnotKind.linkAnnot, "builtin", 0⟩], [])
      else if hasObj ∧ isExported name = true then
        ([⟨AnnotKind.linkAnnot, "", 0⟩], [])
      else
        ([⟨AnnotKind.noAnnot, "", 0⟩], [])
  | GoExpr.pkgSelector path xEnd selPos _ =>
      if path = "C" then
        ([⟨AnnotKind.noAnnot, "", 0⟩, ⟨AnnotKind.noAnnot, "", 0⟩], [])
      else if selPos - xEnd = 1 then
        ([⟨AnnotKind.startLinkAnnot, path, 0⟩,
          ⟨AnnotKind.endLinkAnnot, path, 0⟩], [])
      else
        ([⟨AnnotKind.packageLinkAnnot, path, 0⟩,
          ⟨AnnotKind.linkAnnot, path, 0⟩], [])
  | GoExpr.selectorOther x _ =>
      let r := visitExpr x
      (r.1 ++ [⟨AnnotKind.noAnnot, "", 0⟩], r.2)
  | GoExpr.basicLit isString value =>
      if isString ∧ value.length > 128 then
        ([], ["/* " ++ toString value.length ++
          " byte string literal not displayed */"])
      else
        ([], [])
  | GoExpr.compositeLit typ elts =>
      if elts.length > 100 then
        let rt := visitOpt typ
        (rt.1, rt.2 ++ ["/* " ++ toString elts.length ++
          " elements not displayed */"])
      else
        let rt := visitOpt typ
        let re := visitList elts
        (rt.1 ++ re.1, rt.2 ++ re.2)
  | GoExpr.node children => visitList children

/-- Walk an optional type expression. -/
def visitOpt : Option GoExpr → List Annot × List String
  | none => ([], [])
  | some t => visitExpr t

/-- Walk a list of child expressions in order. -/
def visitList : List GoExpr → List Annot × List String
  | [] => ([], [])
  | e :: rest =>
      let r1 := visitExpr e
      let r2 := visitList rest
      (r1.1 ++ r2.1, r1.2 ++ r2.2)

end

/-! ## Render-failure handling in the buffer-read handler

Embeds `explorer.onBufReadCmd` (`src/src/explore/explore.go` lines
128-147) together with the relevant behavior of `printDoc`
(`src/unnamed/part_005` lines 41-55: on failure it returns
`nil, err`) and `Manager.Display` (`src/src/doc/doc_test.go` lines
346-392: it reads `d.buf`, `d.highlights`, `d.folds`, `d.data` of its
doc argument, so a nil `*Doc` is dereferenced). -/

/-- The part of `doc.Doc` the handler observes: the page text. -/
structure GoDoc where
  buf : String
deriving Repr, DecidableEq

/-- Go `doc.NewDoc()` as seen by the handler: empty text. -/
def NewDoc : GoDoc := ⟨""⟩

/-- Go `Doc.WriteString`. -/
def writeString (d : GoDoc) (s : String) : GoDoc :=
  { d with buf := d.buf ++ s }

/-- The observable outcome of `Manager.Display`. -/
inductive DisplayResult where
  | published (body : String)
  | nilPanic
deriving Repr, DecidableEq

/-- Go `Manager.Display` on a possibly-nil doc pointer: publishes the
page text, or dereferences nil (`d.buf.Bytes()`) and panics. -/
def displayModel : Option GoDoc → DisplayResult
  | none => DisplayResult.nilPanic
  | some d => DisplayResult.published d.buf

/-- Go `explorer.onBufReadCmd` after `printDoc` returned `(d, err)`.
The Go source reads:

    d, err := printDoc(&ctx.Build, eval.Name, eval.Cwd)
    if err != nil {
        d := doc.NewDoc()
        d.WriteString(err.Error())
    }
    return e.docm.Display(d, nvim.Buffer(eval.Bufnr))

The inner `d := doc.NewDoc()` shadows the outer `d`; the doc holding
the error text is discarded when the if block ends, and `Display`
receives the outer `d` unchanged (nil on failure). -/
def onBufReadCmd (d : Option GoDoc) (err : Option String) : DisplayResult :=
  let _shadowed : Option GoDoc := err.map (fun e => writeString NewDoc e)
  displayModel d

end Vigor

namespace Vigor

/-- C4: decoding the encoded address yields the original pair whenever
`line ≥ 0` and `0 ≤ column < 10000`: `line (newPosition l c) = l` and
`column (newPosition l c) = c`. -/
theorem position_roundtrip (l c : Int) (hl : 0 ≤ l) (hc0 : 0 ≤ c)
    (hc : c < 10000) :
    position.line (newPosition l c) = l ∧ position.column (newPosition l c) = c := by
  have hnn : (0 : Int) ≤ l * 10000 + c := by nlinarith
  constructor
  · rw [position.line, newPosition, Int.tdiv_eq_ediv hnn (by norm_num)]
    omega
  · rw [position.column, newPosition, Int.tmod_eq_emod hnn (by norm_num)]
    omega

/-- C4 witness: concrete round trip at line 3, column 57. -/
theorem position_roundtrip_witness :
    (0 : Int) ≤ 3 ∧ (0 : Int) ≤ 57 ∧ (57 : Int) < 10000 ∧
      (position.line (newPosition 3 57) = 3 ∧ position.column (newPosition 3 57) = 57) :=
  ⟨by decide, by decide, by decide,
    position_roundtrip 3 57 (by decide) (by decide) (by decide)⟩

/-- C8: for a balanced `PushFold`/`PopFold` pair popped at position
`cur`, the effective end line is `position.line cur - 1` exactly when
`position.column cur = 1`; the fold is appended if and only if the (possibly
decremented) end line is strictly greater than the start line; and
every fold ever appearing in the fold list has `startLine < endLine`. -/
theorem popFold_retention (start : Int) (rest : List Int)
    (folds : List (Int × Int)) (cur : Int) :
    (∀ st', popFold ⟨start :: rest, folds⟩ cur = some st' →
      st'.folds = folds ++
        (if position.line start <
            (if position.column cur = 1 then position.line cur - 1 else position.line cur) then
          [(position.line start, if position.column cur = 1 then position.line cur - 1 else position.line cur)]
        else [])) ∧
    (∀ st', popFold ⟨start :: rest, folds⟩ cur = some st' →
      ∀ f ∈ st'.folds, f ∉ folds → f.1 < f.2) := by
  set lend : Int := if position.column cur = 1 then position.line cur - 1 else position.line cur with hlend
  have hmain : popFold ⟨start :: rest, folds⟩ cur =
      some { foldStack := rest,
             folds := folds ++
               (if position.line start < lend then [(position.line start, lend)] else []) } := by
    simp only [popFold, gt_iff_lt, ← hlend]
    split
    · rfl
    · rw [List.append_nil]
  constructor
  · intro st' h
    rw [hmain] at h
    injection h with h
    subst h
    rfl
  · intro st' h f hf hnot
    rw [hmain] at h
    injection h with h
    subst h
    have hf' : f ∈ folds ++
        (if position.line start < lend then [(position.line start, lend)] else []) := hf
    rcases List.mem_append.mp hf' with h2 | h2
    · exact absurd h2 hnot
    · by_cases hlt : position.line start < lend
      · rw [if_pos hlt] at h2
        rw [List.mem_singleton.mp h2]
        exact hlt
      · rw [if_neg hlt] at h2
        simp at h2

/-- C8 witness: popping a fold opened at line 2 column 1 and closed at
line 5 column 1 retains the fold `(2, 4)`; the conclusions hold at this
concrete input. -/
theorem popFold_retention_witness :
    (∀ st', popFold ⟨[newPosition 2 1], []⟩ (newPosition 5 1) = some st' →
      st'.folds = [] ++
        (if position.line (newPosition 2 1) <
            (if position.column (newPosition 5 1) = 1 then position.line (newPosition 5 1) - 1
             else position.line (newPosition 5 1)) then
          [(position.line (newPosition 2 1),
            if position.column (newPosition 5 1) = 1 then position.line (newPosition 5 1) - 1
            else position.line (newPosition 5 1))]
        else [])) ∧
    (∀ st', popFold ⟨[newPosition 2 1], []⟩ (newPosition 5 1) = some st' →
      ∀ f ∈ st'.folds, f ∉ ([] : List (Int × Int)) → f.1 < f.2) :=
  popFold_retention (newPosition 2 1) [] [] (newPosition 5 1)

/-! ### ScopeStack helper lemmas -/

theorem spanEnd_cons {α : Type} (lo : Nat) (r : ScopeRec α) (rs : List (ScopeRec α)) :
    spanEnd lo (r :: rs) = spanEnd r.stop rs := rfl

theorem spanEnd_append_single {α : Type} (lo : Nat) (rs : List (ScopeRec α))
    (r : ScopeRec α) : spanEnd lo (rs ++ [r]) = r.stop := by
  simp [spanEnd]

theorem SpanChain.le_spanEnd {α : Type} {lo : Nat} {rs : List (ScopeRec α)}
    (h : SpanChain lo rs) : lo ≤ spanEnd lo rs := by
  induction rs generalizing lo with
  | nil => exact le_refl lo
  | cons r rs ih =>
    obtain ⟨h1, h2, h3⟩ := h
    rw [spanEnd_cons]
    exact le_trans (le_trans h1 h2) (ih h3)

theorem SpanChain.append_single {α : Type} {lo : Nat} {rs : List (ScopeRec α)}
    (h : SpanChain lo rs) {s e : Nat} (hs : spanEnd lo rs ≤ s) (hse : s ≤ e)
    (v : α) : SpanChain lo (rs ++ [⟨s, e, v⟩]) := by
  induction rs generalizing lo with
  | nil => exact ⟨hs, hse, trivial⟩
  | cons r rs ih =>
    obtain ⟨h1, h2, h3⟩ := h
    exact ⟨h1, h2, ih h3 hs⟩

theorem SpanChain.spanStart_ge {α : Type} {lo : Nat} {rs : List (ScopeRec α)}
    (h : SpanChain lo rs) : ∀ r ∈ rs, lo ≤ r.start := by
  induction rs generalizing lo with
  | nil => intro r hr; cases hr
  | cons t ts ih =>
    intro r hr
    obtain ⟨h1, h2, h3⟩ := h
    rcases List.mem_cons.mp hr with rfl | hr
    · exact h1
    · exact le_trans (le_trans h1 h2) (ih h3 r hr)

theorem rlookup_none_of_ge {α : Type} {lo : Nat} {rs : List (ScopeRec α)}
    (h : SpanChain lo rs) {a : Nat} (ha : spanEnd lo rs ≤ a) :
    rlookup rs a = none := by
  induction rs generalizing lo with
  | nil => rfl
  | cons r rs ih =>
    obtain ⟨h1, h2, h3⟩ := h
    rw [spanEnd_cons] at ha
    have hstop : r.stop ≤ a := le_trans h3.le_spanEnd ha
    rw [rlookup, if_neg (by omega)]
    exact ih h3 ha

theorem rlookup_append_single {α : Type} (rs : List (ScopeRec α))
    (r : ScopeRec α) (a : Nat) :
    rlookup (rs ++ [r]) a =
      (rlookup rs a).or
        (if r.start ≤ a ∧ a < r.stop then some r.value else none) := by
  induction rs with
  | nil => simp [rlookup]
  | cons t ts ih =>
    rw [List.cons_append, rlookup, rlookup]
    split
    · rw [Option.or_some]
    · exact ih

/-- Preservation of the scope-stack invariant by one step of the Go
push/pop/write code. -/
theorem scopeStep_inv {α : Type} {st st' : ScopeState α} {e : ScopeEvent α}
    (hinv : ScopeInv st) (hstep : scopeStep st e = some st') : ScopeInv st' := by
  obtain ⟨oc, os, hc, he, oe, tl, lk⟩ := hinv
  cases e with
  | push v =>
    cases hst : st.stack with
    | nil =>
      rw [scopeStep, hst] at hstep
      dsimp only at hstep
      injection hstep with hstep
      subst hstep
      have htop : topBound st = st.addr := by rw [topBound, hst]
      refine ⟨oc, os, hc, he, ?_, ?_, ?_⟩
      · show spanEnd 0 st.out ≤ st.addr
        omega
      · show st.addr ≤ st.addr
        omega
      · intro a
        show rlookup st.hist a =
          if st.addr ≤ a ∧ a < st.addr then some v else rlookup st.out a
        have hlk := lk a
        rw [hst] at hlk
        dsimp only at hlk
        rw [hlk, if_neg (by omega)]
    | cons hd rest =>
      obtain ⟨s, w⟩ := hd
      rw [scopeStep, hst] at hstep
      dsimp only at hstep
      have htop : topBound st = s := by rw [topBound, hst]
      have hoe : spanEnd 0 st.out ≤ s := htop ▸ oe
      have htl : s ≤ st.addr := htop ▸ tl
      by_cases hne : s = st.addr
      · rw [if_neg (not_not_intro hne)] at hstep
        injection hstep with hstep
        subst hstep
        refine ⟨oc, os, hc, he, ?_, ?_, ?_⟩
        · show spanEnd 0 st.out ≤ st.addr
          omega
        · show st.addr ≤ st.addr
          omega
        · intro a
          show rlookup st.hist a =
            if st.addr ≤ a ∧ a < st.addr then some v else rlookup st.out a
          have hlk := lk a
          rw [hst] at hlk
          dsimp only at hlk
          rw [hlk, if_neg (by omega), if_neg (by omega)]
      · rw [if_pos hne] at hstep
        injection hstep with hstep
        subst hstep
        have hslt : s < st.addr := lt_of_le_of_ne htl hne
        refine ⟨oc.append_single hoe (le_of_lt hslt) w, ?_, hc, he, ?_, ?_, ?_⟩
        · intro r hr
          rcases List.mem_append.mp hr with hr | hr
          · exact os r hr
          · rw [List.mem_singleton.mp hr]
            exact hslt
        · show spanEnd 0 (st.out ++ [⟨s, st.addr, w⟩]) ≤ st.addr
          rw [spanEnd_append_single]
        · show st.addr ≤ st.addr
          omega
        · intro a
          show rlookup st.hist a =
            if st.addr ≤ a ∧ a < st.addr then some v
            else rlookup (st.out ++ [⟨s, st.addr, w⟩]) a
          rw [if_neg (by omega), rlookup_append_single]
          have hlk := lk a
          rw [hst] at hlk
          dsimp only at hlk
          rw [hlk]
          by_cases hcond : s ≤ a ∧ a < st.addr
          · rw [if_pos hcond, if_pos hcond,
              rlookup_none_of_ge oc (le_trans hoe hcond.1), Option.none_or]
          · rw [if_neg hcond, if_neg hcond, Option.or_none]
  | pop =>
    cases hst : st.stack with
    | nil =>
      rw [scopeStep, hst] at hstep
      cases hstep
    | cons hd rest =>
      obtain ⟨s, w⟩ := hd
      rw [scopeStep, hst] at hstep
      dsimp only at hstep
      injection hstep with hstep
      subst hstep
      have htop : topBound st = s := by rw [topBound, hst]
      have hoe : spanEnd 0 st.out ≤ s := htop ▸ oe
      have htl : s ≤ st.addr := htop ▸ tl
      have houtChain : SpanChain 0
          (if s ≠ st.addr then st.out ++ [⟨s, st.addr, w⟩] else st.out) := by
        split
        · exact oc.append_single hoe htl w
        · exact oc
      have houtStrict : ∀ r ∈
          (if s ≠ st.addr then st.out ++ [⟨s, st.addr, w⟩] else st.out),
          r.start < r.stop := by
        split
        · rename_i hne
          intro r hr
          rcases List.mem_append.mp hr with hr | hr
          · exact os r hr
          · rw [List.mem_singleton.mp hr]
            exact lt_of_le_of_ne htl hne
        · exact os
      have houtEnd : spanEnd 0
          (if s ≠ st.addr then st.out ++ [⟨s, st.addr, w⟩] else st.out)
          ≤ st.addr := by
        split
        · rw [spanEnd_append_single]
        · exact le_trans hoe htl
      have hlkout : ∀ a, rlookup
          (if s ≠ st.addr then st.out ++ [⟨s, st.addr, w⟩] else st.out) a =
          (if s ≤ a ∧ a < st.addr then some w else rlookup st.out a) := by
        intro a
        split
        · rw [rlookup_append_single]
          by_cases hcond : s ≤ a ∧ a < st.addr
          · rw [if_pos hcond,
              rlookup_none_of_ge oc (le_trans hoe hcond.1), Option.none_or,
              if_pos hcond]
          · rw [if_neg hcond, if_neg hcond, Option.or_none]
        · rename_i hne
          have hs : s = st.addr := by
            by_contra hcon
            exact hne hcon
          rw [if_neg (by omega)]
      have hlka : ∀ a, rlookup st.hist a =
          if s ≤ a ∧ a < st.addr then some w else rlookup st.out a := by
        intro a
        have hlk := lk a
        rw [hst] at hlk
        dsimp only at hlk
        exact hlk
      cases rest with
      | nil =>
        refine ⟨houtChain, houtStrict, hc, he, houtEnd, ?_, ?_⟩
        · show st.addr ≤ st.addr
          omega
        · intro a
          show rlookup st.hist a = rlookup
            (if s ≠ st.addr then st.out ++ [⟨s, st.addr, w⟩] else st.out) a
          rw [hlka a, hlkout a]
      | cons hd2 r2 =>
        obtain ⟨s2, w2⟩ := hd2
        refine ⟨houtChain, houtStrict, hc, he, houtEnd, ?_, ?_⟩
        · show st.addr ≤ st.addr
          omega
        · intro a
          show rlookup st.hist a =
            if st.addr ≤ a ∧ a < st.addr then some w2
            else rlookup
              (if s ≠ st.addr then st.out ++ [⟨s, st.addr, w⟩] else st.out) a
          rw [if_neg (show ¬(st.addr ≤ a ∧ a < st.addr) by omega),
            hlka a, hlkout a]
  | write n =>
    cases hst : st.stack with
    | nil =>
      rw [scopeStep, hst] at hstep
      dsimp only at hstep
      injection hstep with hstep
      subst hstep
      have htop : topBound st = st.addr := by rw [topBound, hst]
      refine ⟨oc, os, hc, ?_, ?_, ?_, ?_⟩
      · show spanEnd 0 st.hist ≤ st.addr + n
        omega
      · show spanEnd 0 st.out ≤ st.addr + n
        omega
      · show st.addr + n ≤ st.addr + n
        omega
      · intro a
        show rlookup st.hist a = rlookup st.out a
        have hlk := lk a
        rw [hst] at hlk
        exact hlk
    | cons hd rest =>
      obtain ⟨s, w⟩ := hd
      rw [scopeStep, hst] at hstep
      dsimp only at hstep
      injection hstep with hstep
      subst hstep
      have htop : topBound st = s := by rw [topBound, hst]
      have hoe : spanEnd 0 st.out ≤ s := htop ▸ oe
      have htl : s ≤ st.addr := htop ▸ tl
      refine ⟨oc, os, hc.append_single he (by omega) w, ?_, ?_, ?_, ?_⟩
      · show spanEnd 0 (st.hist ++ [⟨st.addr, st.addr + n, w⟩]) ≤ st.addr + n
        rw [spanEnd_append_single]
      · show spanEnd 0 st.out ≤ s
        exact hoe
      · show s ≤ st.addr + n
        omega
      · intro a
        show rlookup (st.hist ++ [⟨st.addr, st.addr + n, w⟩]) a =
          if s ≤ a ∧ a < st.addr + n then some w else rlookup st.out a
        have hlk := lk a
        rw [hst] at hlk
        dsimp only at hlk
        rw [rlookup_append_single, hlk]
        dsimp only
        by_cases ha : a < st.addr
        · by_cases hcond : s ≤ a ∧ a < st.addr
          · rw [if_pos hcond, Option.or_some, if_pos (by omega)]
          · rw [if_neg hcond, if_neg (by omega), if_neg (by omega),
              Option.or_none]
        · have hout : rlookup st.out a = none :=
            rlookup_none_of_ge oc (by omega)
          rw [if_neg (by omega), hout, Option.none_or]
          by_cases hlt : a < st.addr + n
          · rw [if_pos (by omega), if_pos (by omega)]
          · rw [if_neg (by omega), if_neg (by omega)]

theorem scopeInit_inv {α : Type} : ScopeInv (initScope : ScopeState α) := by
  refine ⟨trivial, ?_, trivial, le_refl _, le_refl _, le_refl _, ?_⟩
  · intro r hr
    cases hr
  · intro a
    rfl

theorem runScope_inv {α : Type} (evs : List (ScopeEvent α)) :
    ∀ {st st' : ScopeState α}, ScopeInv st → runScope st evs = some st' →
      ScopeInv st' := by
  induction evs with
  | nil =>
    intro st st' h hrun
    rw [runScope] at hrun
    injection hrun with hrun
    subst hrun
    exact h
  | cons e es ih =>
    intro st st' h hrun
    rw [runScope] at hrun
    cases hs : scopeStep st e with
    | none =>
      rw [hs] at hrun
      cases hrun
    | some st1 =>
      rw [hs] at hrun
      exact ih (scopeStep_inv h hs) hrun

theorem SpanChain.pairwise_stop_le {α : Type} {lo : Nat}
    {rs : List (ScopeRec α)} (h : SpanChain lo rs) :
    List.Pairwise (fun r1 r2 => r1.stop ≤ r2.start) rs := by
  induction rs generalizing lo with
  | nil => exact List.Pairwise.nil
  | cons r ts ih =>
    obtain ⟨h1, h2, h3⟩ := h
    exact List.Pairwise.cons (fun r' hr' => h3.spanStart_ge r' hr') (ih h3)

/-- C1: for every correctly balanced sequence of push/pop calls (every
pop matched, final stack empty), the emitted records have no
zero-length entry, and they exactly tile the output-address spans
during which each pushed value was topmost: looking up any address
among the emitted records gives exactly the value that was on top of
the stack when that address was written (and nothing for addresses
written with an empty stack or never written) — contiguous, gap-free
and with the matching value on every covered span. -/
theorem scopeStack_tiling {α : Type} (evs : List (ScopeEvent α))
    (st : ScopeState α) (hrun : runScope initScope evs = some st)
    (hbal : st.stack = []) :
    (∀ r ∈ st.out, r.start < r.stop) ∧
    (∀ a, rlookup st.out a = rlookup st.hist a) := by
  obtain ⟨_, os, _, _, _, _, lk⟩ := runScope_inv evs scopeInit_inv hrun
  refine ⟨os, ?_⟩
  intro a
  have hlk := lk a
  rw [hbal] at hlk
  exact hlk.symm

/-- C1 witness: a concrete balanced trace (push 7, write 5 bytes,
push 8, write 4 bytes, pop, pop) whose final state is computed by
evaluation; the tiling conclusions hold for it. -/
theorem scopeStack_tiling_witness :
    (∀ r ∈ (⟨9, [], [⟨0, 5, 7⟩, ⟨5, 9, 8⟩],
        [⟨0, 5, 7⟩, ⟨5, 9, 8⟩]⟩ : ScopeState Nat).out, r.start < r.stop) ∧
    (∀ a, rlookup (⟨9, [], [⟨0, 5, 7⟩, ⟨5, 9, 8⟩],
        [⟨0, 5, 7⟩, ⟨5, 9, 8⟩]⟩ : ScopeState Nat).out a =
      rlookup (⟨9, [], [⟨0, 5, 7⟩, ⟨5, 9, 8⟩],
        [⟨0, 5, 7⟩, ⟨5, 9, 8⟩]⟩ : ScopeState Nat).hist a) :=
  scopeStack_tiling
    [.push 7, .write 5, .push 8, .write 4, .pop, .pop]
    ⟨9, [], [⟨0, 5, 7⟩, ⟨5, 9, 8⟩], [⟨0, 5, 7⟩, ⟨5, 9, 8⟩]⟩
    (by rfl) (by rfl)

/-- C5: after any balanced sequence of link-scope push/pop calls
interleaved with monotone text emission, every emitted link record has
`start < end`, the records are pairwise non-overlapping (each record
ends no later than any later record starts), and their end addresses
are strictly increasing in emission order. -/
theorem linkStack_invariant (evs : List (ScopeEvent linkTarget))
    (st : ScopeState linkTarget)
    (hrun : runScope initScope evs = some st) (hbal : st.stack = []) :
    (∀ r ∈ st.out, r.start < r.stop) ∧
    List.Pairwise (fun r1 r2 => r1.stop ≤ r2.start) st.out ∧
    List.Pairwise (fun r1 r2 => r1.stop < r2.stop) st.out := by
  obtain ⟨oc, os, _, _, _, _, _⟩ := runScope_inv evs scopeInit_inv hrun
  refine ⟨os, oc.pairwise_stop_le, ?_⟩
  exact oc.pairwise_stop_le.imp_of_mem
    (fun {r1 r2} _ h2 hle => lt_of_le_of_lt hle (os r2 h2))

/-- C5 witness: a concrete balanced link construction (open link A,
write 5 bytes, open nested link B, write 4 bytes, close B, close A);
the emitted link list satisfies all three conclusions. -/
theorem linkStack_invariant_witness :
    (∀ r ∈ (⟨9, [], [⟨0, 5, ⟨0, 0⟩⟩, ⟨5, 9, ⟨1, 12⟩⟩],
        [⟨0, 5, ⟨0, 0⟩⟩, ⟨5, 9, ⟨1, 12⟩⟩]⟩ : ScopeState linkTarget).out,
      r.start < r.stop) ∧
    List.Pairwise (fun r1 r2 => r1.stop ≤ r2.start)
      (⟨9, [], [⟨0, 5, ⟨0, 0⟩⟩, ⟨5, 9, ⟨1, 12⟩⟩],
        [⟨0, 5, ⟨0, 0⟩⟩, ⟨5, 9, ⟨1, 12⟩⟩]⟩ : ScopeState linkTarget).out ∧
    List.Pairwise (fun r1 r2 => r1.stop < r2.stop)
      (⟨9, [], [⟨0, 5, ⟨0, 0⟩⟩, ⟨5, 9, ⟨1, 12⟩⟩],
        [⟨0, 5, ⟨0, 0⟩⟩, ⟨5, 9, ⟨1, 12⟩⟩]⟩ : ScopeState linkTarget).out :=
  linkStack_invariant
    [.push ⟨0, 0⟩, .write 5, .push ⟨1, 12⟩, .write 4, .pop, .pop]
    ⟨9, [], [⟨0, 5, ⟨0, 0⟩⟩, ⟨5, 9, ⟨1, 12⟩⟩],
      [⟨0, 5, ⟨0, 0⟩⟩, ⟨5, 9, ⟨1, 12⟩⟩]⟩
    (by rfl) (by rfl)

/-! ### StringTable helper lemmas -/

theorem enumStringsFrom_length (k : Nat) (l : List String) :
    (enumStringsFrom k l).length = l.length := by
  induction l generalizing k with
  | nil => rfl
  | cons s rest ih => simp [enumStringsFrom, ih]

theorem lookupIndex_append (l1 l2 : List (String × Nat)) (s : String) :
    lookupIndex (l1 ++ l2) s =
      match lookupIndex l1 s with
      | some i => some i
      | none => lookupIndex l2 s := by
  induction l1 with
  | nil => rfl
  | cons p rest ih =>
    obtain ⟨k, i⟩ := p
    rw [List.cons_append, lookupIndex, lookupIndex]
    split
    · rfl
    · exact ih

theorem lookupIndex_enum_none {l : List String} {s : String} (k : Nat)
    (h : s ∉ l) : lookupIndex (enumStringsFrom k l) s = none := by
  induction l generalizing k with
  | nil => rfl
  | cons t rest ih =>
    have ht : t ≠ s := fun hts => h (hts ▸ List.mem_cons_self t rest)
    have hrest : s ∉ rest := fun hr => h (List.mem_cons_of_mem t hr)
    rw [enumStringsFrom, lookupIndex, if_neg ht]
    exact ih (k + 1) hrest

theorem lookupIndex_enum_isSome {l : List String} {s : String} (k : Nat)
    (h : s ∈ l) : (lookupIndex (enumStringsFrom k l) s).isSome := by
  induction l generalizing k with
  | nil => cases h
  | cons t rest ih =>
    rw [enumStringsFrom, lookupIndex]
    by_cases ht : t = s
    · rw [if_pos ht]
      rfl
    · rw [if_neg ht]
      rcases List.mem_cons.mp h with hh | hh
      · exact absurd hh.symm ht
      · exact ih (k + 1) hh

theorem lookupIndex_enum_some {l : List String} {s : String} :
    ∀ {k i : Nat}, lookupIndex (enumStringsFrom k l) s = some i →
      k ≤ i ∧ i - k < l.length ∧ l[i - k]? = some s := by
  induction l with
  | nil => intro k i h; cases h
  | cons t rest ih =>
    intro k i h
    rw [enumStringsFrom, lookupIndex] at h
    by_cases ht : t = s
    · rw [if_pos ht] at h
      injection h with h
      subst h
      refine ⟨le_refl _, by simp, ?_⟩
      rw [Nat.sub_self]
      rw [List.getElem?_cons_zero, ht]
    · rw [if_neg ht] at h
      obtain ⟨h1, h2, h3⟩ := ih h
      refine ⟨by omega, by simp; omega, ?_⟩
      rw [show i - k = (i - (k + 1)) + 1 from by omega,
        List.getElem?_cons_succ]
      exact h3

theorem enumStringsFrom_append (k : Nat) (l : List String) (s : String) :
    enumStringsFrom k (l ++ [s]) =
      enumStringsFrom k l ++ [(s, k + l.length)] := by
  induction l generalizing k with
  | nil => simp [enumStringsFrom]
  | cons t rest ih =>
    rw [List.cons_append, enumStringsFrom, enumStringsFrom, ih,
      show k + (t :: rest).length = k + 1 + rest.length from by
        simp [List.length_cons]; omega]
    simp

theorem stringIndex_wf {st : InternState} {s : String} (h : InternWF st) :
    InternWF (stringIndex st s).2 := by
  obtain ⟨hidx, hnd⟩ := h
  rw [stringIndex]
  cases hl : lookupIndex st.index s with
  | some i => exact ⟨hidx, hnd⟩
  | none =>
    dsimp only
    have hlen : st.index.length = st.strings.length := by
      rw [hidx, enumStringsFrom_length]
    have hmem : s ∉ st.strings := by
      intro hmem
      have := lookupIndex_enum_isSome 0 hmem
      rw [← hidx, hl] at this
      cases this
    constructor
    · show st.index ++ [(s, st.index.length)] =
        enumStringsFrom 0 (st.strings ++ [s])
      rw [enumStringsFrom_append, ← hidx, hlen, Nat.zero_add]
    · show (st.strings ++ [s]).Nodup
      simp [List.nodup_append, hnd, hmem]

theorem runIntern_wf (calls : List String) : InternWF (runIntern calls) := by
  suffices h : ∀ st : InternState, InternWF st →
      InternWF (calls.foldl (fun st s => (stringIndex st s).2) st) from
    h initIntern ⟨rfl, List.nodup_nil⟩
  induction calls with
  | nil => intro st h; exact h
  | cons c rest ih =>
    intro st h
    exact ih _ (stringIndex_wf h)

/-- C9: for every sequence of `stringIndex` calls, a repeated call with
the same string returns the same index and leaves the state unchanged
(the table does not grow); the strings table stays duplicate-free;
every returned index is in range; and the strings table at the
returned index holds exactly the interned string. -/
theorem stringIndex_interning (calls : List String) (s : String) :
    stringIndex (stringIndex (runIntern calls) s).2 s =
      ((stringIndex (runIntern calls) s).1,
        (stringIndex (runIntern calls) s).2) ∧
    (stringIndex (runIntern calls) s).2.strings.Nodup ∧
    (stringIndex (runIntern calls) s).1 <
      (stringIndex (runIntern calls) s).2.strings.length ∧
    (stringIndex (runIntern calls) s).2.strings[
      (stringIndex (runIntern calls) s).1]? = some s := by
  obtain ⟨hidx, hnd⟩ := runIntern_wf calls
  have hwf2 := @stringIndex_wf (runIntern calls) s ⟨hidx, hnd⟩
  cases hl : lookupIndex (runIntern calls).index s with
  | some i =>
    have hr : stringIndex (runIntern calls) s = (i, runIntern calls) := by
      rw [stringIndex, hl]
    obtain ⟨_, h2, h3⟩ := lookupIndex_enum_some (hidx ▸ hl)
    rw [hr]
    refine ⟨by rw [stringIndex, hl], hnd, ?_, ?_⟩
    · simpa using h2
    · simpa using h3
  | none =>
    have hlen : (runIntern calls).index.length =
        (runIntern calls).strings.length := by
      rw [hidx, enumStringsFrom_length]
    have hr : stringIndex (runIntern calls) s =
        ((runIntern calls).index.length,
         { index := (runIntern calls).index ++
             [(s, (runIntern calls).index.length)],
           strings := (runIntern calls).strings ++ [s] }) := by
      rw [stringIndex, hl]
    rw [hr] at hwf2 ⊢
    refine ⟨?_, hwf2.2, ?_, ?_⟩
    · rw [stringIndex]
      dsimp only
      rw [lookupIndex_append, hl]
      dsimp only [lookupIndex]
      rw [if_pos rfl]
    · dsimp only
      rw [List.length_append]
      simp [hlen]
    · dsimp only
      rw [hlen, List.getElem?_concat_length]

/-! ### LinkIndex helper lemmas -/

theorem searchLoop_spec {n : Nat} (f : Nat → Bool)
    (hmono : ∀ k l, k ≤ l → l < n → f k = true → f l = true) :
    ∀ (fuel i j : Nat), i ≤ j → j ≤ n → j - i ≤ fuel →
      (∀ k, k < i → k < n → f k = false) →
      (∀ k, j ≤ k → k < n → f k = true) →
      i ≤ searchLoop f fuel i j ∧ searchLoop f fuel i j ≤ j ∧
      (∀ k, k < searchLoop f fuel i j → k < n → f k = false) ∧
      (∀ k, searchLoop f fuel i j ≤ k → k < n → f k = true) := by
  intro fuel
  induction fuel with
  | zero =>
    intro i j h1 h2 h3 hi hj
    have hij : i = j := by omega
    rw [searchLoop]
    exact ⟨le_refl _, h1, hi, fun k hk hkn => hj k (hij ▸ hk) hkn⟩
  | succ fuel ih =>
    intro i j h1 h2 h3 hi hj
    rw [searchLoop]
    by_cases hij : i < j
    · rw [if_pos hij]
      dsimp only
      by_cases hfm : f ((i + j) / 2) = true
      · rw [if_pos hfm]
        refine (ih i ((i + j) / 2) (by omega) (by omega) (by omega) hi ?_).imp
          id (fun h => ⟨by omega, h.2⟩)
        intro k hk hkn
        exact hmono ((i + j) / 2) k hk hkn hfm
      · rw [if_neg hfm]
        have hfm' : f ((i + j) / 2) = false := by
          cases h : f ((i + j) / 2)
          · rfl
          · exact absurd h hfm
        refine (ih ((i + j) / 2 + 1) j (by omega) h2 (by omega) ?_ hj).imp
          (fun h => by omega) id
        intro k hk hkn
        by_cases hki : k < i
        · exact hi k hki hkn
        · cases hfk : f k
          · rfl
          · exact absurd (hmono k ((i + j) / 2) (by omega) (by omega) hfk)
              (by rw [hfm']; simp)
    · rw [if_neg hij]
      have hij' : i = j := by omega
      exact ⟨le_refl _, h1, hi, fun k hk hkn => hj k (hij' ▸ hk) hkn⟩

theorem sortSearch_spec {n : Nat} (f : Nat → Bool)
    (hmono : ∀ k l, k ≤ l → l < n → f k = true → f l = true) :
    sortSearch n f ≤ n ∧
    (∀ k, k < sortSearch n f → k < n → f k = false) ∧
    (∀ k, sortSearch n f ≤ k → k < n → f k = true) := by
  obtain ⟨_, h2, h3, h4⟩ := searchLoop_spec f hmono n 0 n (by omega)
    (le_refl _) (by omega) (by omega) (by omega)
  exact ⟨h2, h3, h4⟩

theorem LinkChain.linkStart_ge {lo : Int} {ls : List Link}
    (h : LinkChain lo ls) : ∀ l ∈ ls, lo ≤ l.start := by
  induction ls generalizing lo with
  | nil => intro l hl; cases hl
  | cons t ts ih =>
    intro l hl
    obtain ⟨h1, h2, h3⟩ := h
    rcases List.mem_cons.mp hl with rfl | hl
    · exact h1
    · exact le_trans (le_trans h1 (le_of_lt h2)) (ih h3 l hl)

theorem LinkChain.pairwise {lo : Int} {ls : List Link}
    (h : LinkChain lo ls) :
    List.Pairwise (fun l1 l2 => l1.stop ≤ l2.start) ls := by
  induction ls generalizing lo with
  | nil => exact List.Pairwise.nil
  | cons t ts ih =>
    obtain ⟨h1, h2, h3⟩ := h
    exact List.Pairwise.cons (fun l' hl' => h3.linkStart_ge l' hl') (ih h3)

theorem LinkChain.strict {lo : Int} {ls : List Link}
    (h : LinkChain lo ls) : ∀ l ∈ ls, l.start < l.stop := by
  induction ls generalizing lo with
  | nil => intro l hl; cases hl
  | cons t ts ih =>
    intro l hl
    obtain ⟨h1, h2, h3⟩ := h
    rcases List.mem_cons.mp hl with rfl | hl
    · exact h2
    · exact ih h3 l hl

theorem LinkChain.stop_mono {lo : Int} {ls : List Link}
    (h : LinkChain lo ls) (i j : Fin ls.length) (hij : i.1 ≤ j.1) :
    (ls.get i).stop ≤ (ls.get j).stop := by
  rcases Nat.lt_or_ge i.1 j.1 with hlt | hge
  · have hpair := (List.pairwise_iff_get.mp h.pairwise) i j hlt
    have hstrict := h.strict (ls.get j) (ls.get_mem _ _)
    exact le_trans hpair (le_of_lt hstrict)
  · have hij' : i = j := Fin.ext (by omega)
    subst hij'
    exact le_refl _

theorem getD_eq_get {l : List Link} {k : Nat} (h : k < l.length) :
    l.getD k ⟨0, 0, 0, 0⟩ = l.get ⟨k, h⟩ := by
  simp [List.getD_eq_getElem?_getD, List.getElem?_eq_getElem h]

theorem LinkChain.getD_start_ge {lo : Int} {ls : List Link}
    (h : LinkChain lo ls) :
    ∀ k, k < ls.length → lo ≤ (ls.getD k ⟨0, 0, 0, 0⟩).start := by
  induction ls generalizing lo with
  | nil => intro k hk; exact absurd hk (Nat.not_lt_zero k)
  | cons t ts ih =>
    intro k hk
    obtain ⟨h1, h2, h3⟩ := h
    cases k with
    | zero => exact h1
    | succ k2 =>
      have hrec := ih h3 k2 (by simpa using hk)
      calc lo ≤ t.stop := le_trans h1 (le_of_lt h2)
        _ ≤ ((t :: ts).getD (k2 + 1) ⟨0, 0, 0, 0⟩).start := hrec

theorem LinkChain.getD_strict {lo : Int} {ls : List Link}
    (h : LinkChain lo ls) :
    ∀ k, k < ls.length →
      (ls.getD k ⟨0, 0, 0, 0⟩).start < (ls.getD k ⟨0, 0, 0, 0⟩).stop := by
  induction ls generalizing lo with
  | nil => intro k hk; exact absurd hk (Nat.not_lt_zero k)
  | cons t ts ih =>
    intro k hk
    obtain ⟨h1, h2, h3⟩ := h
    cases k with
    | zero => exact h2
    | succ k2 => exact ih h3 k2 (by simpa using hk)

theorem LinkChain.getD_stop_le_start {lo : Int} {ls : List Link}
    (h : LinkChain lo ls) :
    ∀ k kk, k < kk → kk < ls.length →
      (ls.getD k ⟨0, 0, 0, 0⟩).stop ≤ (ls.getD kk ⟨0, 0, 0, 0⟩).start := by
  induction ls generalizing lo with
  | nil => intro k kk _ hkk; exact absurd hkk (Nat.not_lt_zero kk)
  | cons t ts ih =>
    intro k kk hkkk hkk
    obtain ⟨h1, h2, h3⟩ := h
    cases k with
    | zero =>
      cases kk with
      | zero => exact absurd hkkk (lt_irrefl 0)
      | succ kk2 => exact h3.getD_start_ge kk2 (by simpa using hkk)
    | succ k2 =>
      cases kk with
      | zero => exact absurd hkkk (by omega)
      | succ kk2 => exact ih h3 k2 kk2 (by omega) (by simpa using hkk)

theorem LinkChain.getD_stop_mono {lo : Int} {ls : List Link}
    (h : LinkChain lo ls) :
    ∀ k kk, k ≤ kk → kk < ls.length →
      (ls.getD k ⟨0, 0, 0, 0⟩).stop ≤ (ls.getD kk ⟨0, 0, 0, 0⟩).stop := by
  intro k kk hk hkk
  rcases Nat.lt_or_ge k kk with hlt | hge
  · exact le_trans (h.getD_stop_le_start k kk hlt hkk)
      (le_of_lt (h.getD_strict kk hkk))
  · have : k = kk := by omega
    subst this
    exact le_refl _

theorem findLink_pred_mono {lo : Int} {links : List Link}
    (h : LinkChain lo links) (p : Int) :
    ∀ k kk, k ≤ kk → kk < links.length →
      decide ((links.getD k ⟨0, 0, 0, 0⟩).stop > p) = true →
      decide ((links.getD kk ⟨0, 0, 0, 0⟩).stop > p) = true := by
  intro k kk hk hkk hdec
  rw [decide_eq_true_eq] at hdec
  rw [decide_eq_true_eq]
  have hmono := h.getD_stop_mono k kk hk hkk
  omega

/-- C2 (amended): for every link whose start and end lie on line `L`
in an address-sorted link list, `findLink`'s search returns that link
for every column whose encoded position lies in `[start, end)`;
returns no link for a query on any line on which no link starts; and
returns no link at the position exactly equal to `end` provided no
link with a larger end address starts on line `L` (otherwise the
search may return a later link of the same line). -/
theorem findLink_point_lookup (lo : Int) (links : List Link) (l : Link)
    (L : Int) (hsorted : LinkChain lo links) (hmem : l ∈ links)
    (hstartline : position.line l.start = L) (hstopline : position.line l.stop = L) :
    (∀ c : Int, l.start ≤ newPosition L c → newPosition L c < l.stop →
      findLinkIn links L c = some l) ∧
    (∀ q c : Int, (∀ l' ∈ links, position.line l'.start ≠ q) →
      findLinkIn links q c = none) ∧
    (∀ c : Int, newPosition L c = l.stop →
      (∀ l' ∈ links, l.stop < l'.stop → position.line l'.start ≠ L) →
      findLinkIn links L c = none) := by
  refine ⟨?_, ?_, ?_⟩
  · intro c hc1 hc2
    obtain ⟨idx, hgetl⟩ := List.mem_iff_get.mp hmem
    have hmono := findLink_pred_mono hsorted (newPosition L c)
    obtain ⟨hle, hfalse, htrue⟩ := sortSearch_spec
      (fun i => decide ((links.getD i ⟨0, 0, 0, 0⟩).stop > newPosition L c))
      hmono
    have hgetD : links.getD idx.1 ⟨0, 0, 0, 0⟩ = l := by
      rw [getD_eq_get idx.2, Fin.eta, hgetl]
    have hfidx : decide ((links.getD idx.1 ⟨0, 0, 0, 0⟩).stop >
        newPosition L c) = true := by
      rw [decide_eq_true_eq, hgetD]
      omega
    have hbelow : ∀ k, k < idx.1 →
        decide ((links.getD k ⟨0, 0, 0, 0⟩).stop > newPosition L c)
          = false := by
      intro k hk
      rw [decide_eq_false_iff_not]
      have hub := hsorted.getD_stop_le_start k idx.1 hk idx.2
      rw [hgetD] at hub
      omega
    have hreq : sortSearch links.length
        (fun i => decide ((links.getD i ⟨0, 0, 0, 0⟩).stop >
          newPosition L c)) = idx.1 := by
      by_contra hne
      rcases Nat.lt_or_ge (sortSearch links.length
        (fun i => decide ((links.getD i ⟨0, 0, 0, 0⟩).stop >
          newPosition L c))) idx.1 with hlt | hge
      · have h1 := htrue _ (le_refl _) (lt_trans hlt idx.2)
        have h2 := hbelow _ hlt
        rw [h1] at h2
        cases h2
      · have hgt : idx.1 < sortSearch links.length
            (fun i => decide ((links.getD i ⟨0, 0, 0, 0⟩).stop >
              newPosition L c)) := by omega
        have h1 := hfalse idx.1 hgt idx.2
        rw [hfidx] at h1
        cases h1
    simp only [findLinkIn, hreq]
    rw [dif_pos idx.2]
    simp only [Fin.eta]
    rw [hgetl, hstartline]
    rw [if_neg (not_not_intro rfl)]
  · intro q c hq
    simp only [findLinkIn]
    by_cases h : sortSearch links.length
        (fun i => decide ((links.getD i ⟨0, 0, 0, 0⟩).stop >
          newPosition q c)) < links.length
    · rw [dif_pos h]
      rw [if_pos (hq _ (links.get_mem _ _))]
    · rw [dif_neg h]
  · intro c hc hnol
    have hmono := findLink_pred_mono hsorted (newPosition L c)
    obtain ⟨hle, hfalse, htrue⟩ := sortSearch_spec
      (fun i => decide ((links.getD i ⟨0, 0, 0, 0⟩).stop > newPosition L c))
      hmono
    simp only [findLinkIn]
    by_cases h : sortSearch links.length
        (fun i => decide ((links.getD i ⟨0, 0, 0, 0⟩).stop >
          newPosition L c)) < links.length
    · rw [dif_pos h]
      have hf := htrue _ (le_refl _) h
      rw [decide_eq_true_eq] at hf
      have hstop : l.stop < (links.get ⟨_, h⟩).stop := by
        rw [← getD_eq_get h]
        omega
      rw [if_pos (hnol _ (links.get_mem _ _) hstop)]
    · rw [dif_neg h]

/-- C2 counterexample: with two disjoint links on line 1 —
`[10005, 10010)` and `[10012, 10018)` — the query at the position
exactly equal to the first link's end returns the second link rather
than "no link", refuting the claim as stated. -/
theorem findLink_at_end_counterexample :
    newPosition 1 10 = (⟨10005, 10010, 0, 0⟩ : Link).stop ∧
    position.line (⟨10005, 10010, 0, 0⟩ : Link).start = 1 ∧
    position.line (⟨10005, 10010, 0, 0⟩ : Link).stop = 1 ∧
    LinkChain 0 [⟨10005, 10010, 0, 0⟩, ⟨10012, 10018, 0, 0⟩] ∧
    findLinkIn [⟨10005, 10010, 0, 0⟩, ⟨10012, 10018, 0, 0⟩] 1 10 =
      some ⟨10012, 10018, 0, 0⟩ := by
  refine ⟨by decide, by decide, by decide, ?_, by decide⟩
  exact ⟨by decide, by decide, by decide, by decide, trivial⟩

/-- C2 witness: concrete single-link application of the amended
theorem (link `[10005, 10010)` on line 1). -/
theorem findLink_point_lookup_witness :
    (∀ c : Int, (⟨10005, 10010, 0, 0⟩ : Link).start ≤ newPosition 1 c →
      newPosition 1 c < (⟨10005, 10010, 0, 0⟩ : Link).stop →
      findLinkIn [⟨10005, 10010, 0, 0⟩] 1 c =
        some ⟨10005, 10010, 0, 0⟩) ∧
    (∀ q c : Int,
      (∀ l' ∈ [(⟨10005, 10010, 0, 0⟩ : Link)], position.line l'.start ≠ q) →
      findLinkIn [⟨10005, 10010, 0, 0⟩] q c = none) ∧
    (∀ c : Int, newPosition 1 c = (⟨10005, 10010, 0, 0⟩ : Link).stop →
      (∀ l' ∈ [(⟨10005, 10010, 0, 0⟩ : Link)],
        (⟨10005, 10010, 0, 0⟩ : Link).stop < l'.stop →
        position.line l'.start ≠ 1) →
      findLinkIn [⟨10005, 10010, 0, 0⟩] 1 c = none) :=
  findLink_point_lookup 0 [⟨10005, 10010, 0, 0⟩] ⟨10005, 10010, 0, 0⟩ 1
    ⟨by decide, by decide, trivial⟩ (List.mem_singleton.mpr rfl)
    (by decide) (by decide)

/-- C10 (amended): for a buffer id with no registry entry, `findLink`
returns no document and no link for every `(line, col)`; the jump
handler issues no navigation command and returns without error; and
the hover handler applies no new overlay — it performs no overlay
change at all when the current window has no active overlay, and
merely clears (deletes) a stale overlay when one is present. -/
theorem unknownBuffer_noop (st : ManagerState) (b line col : Int)
    (hunk : lookupMap st.docs b = none) :
    findLink st b line col = none ∧
    onJump st b line col = some [] ∧
    (∀ w newId : Int, lookupMap st.highlights w = none →
      onUpdateHighlight st b line col w newId = (st, [])) ∧
    (∀ (w newId : Int) (hl : windowHighlight),
      lookupMap st.highlights w = some hl →
      onUpdateHighlight st b line col w newId =
        ({ st with highlights := removeMap st.highlights w },
         [OverlayCall.matchdelete hl.id])) := by
  have hfl : findLink st b line col = none := by
    rw [findLink, hunk]
  refine ⟨hfl, ?_, ?_, ?_⟩
  · rw [onJump, hfl]
  · intro w newId hw
    simp [onUpdateHighlight, hfl, hw]
  · intro w newId hl hw
    simp [onUpdateHighlight, hfl, hw]

/-- C10 counterexample: with an empty document registry and a stale
window overlay (id 3), the hover handler for the unknown buffer 7 does
change the overlay: it issues a `matchdelete` call, refuting the "no
overlay change" part of the claim as stated. -/
theorem unknownBuffer_hover_counterexample :
    lookupMap (⟨[], [(1, ⟨3, ⟨10005, 10010, 0, 0⟩⟩)]⟩
      : ManagerState).docs 7 = none ∧
    (onUpdateHighlight ⟨[], [(1, ⟨3, ⟨10005, 10010, 0, 0⟩⟩)]⟩
      7 2 4 1 99).2 = [OverlayCall.matchdelete 3] ∧
    (onUpdateHighlight ⟨[], [(1, ⟨3, ⟨10005, 10010, 0, 0⟩⟩)]⟩
      7 2 4 1 99).2 ≠ [] := by
  refine ⟨by decide, by decide, by decide⟩

/-- C10 witness: the amended theorem applied to a concrete state whose
registry has no entry for buffer 7. -/
theorem unknownBuffer_noop_witness :
    findLink ⟨[], [(1, ⟨3, ⟨10005, 10010, 0, 0⟩⟩)]⟩ 7 2 4 = none ∧
    onJump ⟨[], [(1, ⟨3, ⟨10005, 10010, 0, 0⟩⟩)]⟩ 7 2 4 = some [] ∧
    (∀ w newId : Int,
      lookupMap (⟨[], [(1, ⟨3, ⟨10005, 10010, 0, 0⟩⟩)]⟩
        : ManagerState).highlights w = none →
      onUpdateHighlight ⟨[], [(1, ⟨3, ⟨10005, 10010, 0, 0⟩⟩)]⟩
        7 2 4 w newId =
        (⟨[], [(1, ⟨3, ⟨10005, 10010, 0, 0⟩⟩)]⟩, [])) ∧
    (∀ (w newId : Int) (hl : windowHighlight),
      lookupMap (⟨[], [(1, ⟨3, ⟨10005, 10010, 0, 0⟩⟩)]⟩
        : ManagerState).highlights w = some hl →
      onUpdateHighlight ⟨[], [(1, ⟨3, ⟨10005, 10010, 0, 0⟩⟩)]⟩
        7 2 4 w newId =
        ({ (⟨[], [(1, ⟨3, ⟨10005, 10010, 0, 0⟩⟩)]⟩ : ManagerState) with
            highlights := removeMap
              (⟨[], [(1, ⟨3, ⟨10005, 10010, 0, 0⟩⟩)]⟩
                : ManagerState).highlights w },
         [OverlayCall.matchdelete hl.id])) :=
  unknownBuffer_noop ⟨[], [(1, ⟨3, ⟨10005, 10010, 0, 0⟩⟩)]⟩ 7 2 4 (by rfl)

/-! ### TokenAnnotationMerger helper lemmas -/

theorem take_drop_append {α : Type} (l : List α) (a b : Nat) (hab : a ≤ b) :
    (l.take b).drop a ++ l.drop b = l.drop a := by
  rcases le_or_lt a l.length with hal | hal
  · have hmin : a ≤ (l.take b).length := by
      rw [List.length_take]
      omega
    conv_rhs => rw [← List.take_append_drop b l]
    rw [List.drop_append_of_le_length hmin]
  · rw [List.drop_eq_nil_of_le (le_of_lt hal),
      List.drop_eq_nil_of_le (by omega : l.length ≤ b),
      List.drop_eq_nil_of_le (by rw [List.length_take]; omega),
      List.append_nil]

theorem chunkText_append (xs ys : List Chunk) :
    chunkText (xs ++ ys) = chunkText xs ++ chunkText ys := by
  induction xs with
  | nil => rfl
  | cons c rest ih =>
    cases c <;> rw [List.cons_append, chunkText, chunkText, ih,
      List.append_assoc]

theorem identAnns_append (xs ys : List Chunk) :
    identAnns (xs ++ ys) = identAnns xs ++ identAnns ys := by
  induction xs with
  | nil => rfl
  | cons c rest ih =>
    cases c with
    | text s => rw [List.cons_append, identAnns, identAnns, ih]
    | comment s => rw [List.cons_append, identAnns, identAnns, ih]
    | ident a s =>
      rw [List.cons_append, identAnns, identAnns, ih, List.cons_append]

theorem tokOk_mono {buf : List Char} {toks : List Tok} {lo lo2 : Nat}
    (h : tokOk lo2 buf toks = true) (hle : lo ≤ lo2) :
    tokOk lo buf toks = true := by
  cases toks with
  | nil => rfl
  | cons t rest =>
    rw [tokOk] at h ⊢
    simp only [Bool.and_eq_true, decide_eq_true_eq] at h ⊢
    exact ⟨⟨⟨by omega, h.1.1.2⟩, h.1.2⟩, h.2⟩

theorem mergeLoop_spec (buf : List Char) :
    ∀ (toks : List Tok) (anns : List Annot) (lastOffset : Nat)
      (acc : List Chunk), tokOk lastOffset buf toks = true →
      chunkText (mergeLoop buf toks anns lastOffset acc).1 =
        chunkText acc ++ buf.drop lastOffset ∧
      identAnns (mergeLoop buf toks anns lastOffset acc).1 =
        identAnns acc ++ anns.take (identCount toks) ∧
      (mergeLoop buf toks anns lastOffset acc).2 =
        anns.drop (identCount toks) := by
  intro toks
  induction toks with
  | nil =>
    intro anns lastOffset acc _
    rw [mergeLoop]
    refine ⟨?_, ?_, rfl⟩
    · rw [chunkText_append, chunkText, chunkText, List.append_nil]
    · rw [identAnns_append, identAnns, identAnns, identCount,
        List.take_zero, List.append_nil]
  | cons t rest ih =>
    obtain ⟨toff, tlit, tkind⟩ := t
    intro anns lastOffset acc hok
    rw [tokOk] at hok
    simp only [Bool.and_eq_true, decide_eq_true_eq] at hok
    obtain ⟨⟨⟨h1, h2⟩, h3⟩, h4⟩ := hok
    have hsplit : (buf.take toff).drop lastOffset ++
        (tlit ++ buf.drop (toff + tlit.length)) = buf.drop lastOffset := by
      have e1 : tlit ++ buf.drop (toff + tlit.length) =
          buf.drop toff := by
        have e0 := take_drop_append buf toff (toff + tlit.length)
          (by omega)
        rw [← h3] at e0
        exact e0
      rw [e1]
      exact take_drop_append buf lastOffset toff h1
    cases tkind with
    | comment =>
      rw [mergeLoop]
      obtain ⟨ih1, ih2, ih3⟩ := ih anns (toff + tlit.length)
        (acc ++ [Chunk.text ((buf.take toff).drop lastOffset),
          Chunk.comment tlit]) h4
      refine ⟨?_, ?_, ?_⟩
      · rw [ih1, chunkText_append]
        simp only [chunkText, List.append_nil, List.append_assoc]
        rw [hsplit]
      · rw [ih2, identAnns_append]
        simp only [identAnns, List.append_nil, identCount]
        simp
      · rw [ih3, identCount]
        simp
    | ident =>
      cases anns with
      | nil =>
        rw [mergeLoop]
        refine ⟨?_, ?_, ?_⟩
        · rw [chunkText_append]
          simp only [chunkText, List.append_nil]
        · rw [identAnns_append]
          simp only [identAnns, List.append_nil, List.take_nil]
        · rw [List.drop_nil]
      | cons a anns2 =>
        rw [mergeLoop]
        obtain ⟨ih1, ih2, ih3⟩ := ih anns2 (toff + tlit.length)
          (acc ++ [Chunk.text ((buf.take toff).drop lastOffset),
            Chunk.ident a tlit]) h4
        refine ⟨?_, ?_, ?_⟩
        · rw [ih1, chunkText_append]
          simp only [chunkText, List.append_nil, List.append_assoc]
          rw [hsplit]
        · rw [ih2, identAnns_append]
          simp only [identAnns, List.append_nil, identCount]
          simp [List.append_assoc]
          rw [Nat.add_comm 1 (identCount rest), List.take_succ_cons]
        · rw [ih3, identCount]
          simp only [if_true]
          rw [Nat.add_comm 1 (identCount rest), List.drop_succ_cons]
    | other =>
      rw [mergeLoop]
      obtain ⟨ih1, ih2, ih3⟩ := ih anns lastOffset acc
        (tokOk_mono h4 (by omega))
      refine ⟨ih1, ?_, ?_⟩
      · rw [ih2, identCount]
        simp
      · rw [ih3, identCount]
        simp

/-- C6: in the token/annotation merge over one declaration, each
identifier token consumes exactly one annotation from the head of the
queue, in order; when an identifier is scanned with the queue empty
the merger stops annotating and emits all remaining text raw — for
every consistent token stream, the emitted text always equals the
entire printed declaration (the merge is total: no abort, no panic),
the consumed annotations are exactly the first `min(#idents, #anns)`
queue entries in order, and the leftover queue is the corresponding
tail. -/
theorem merge_underflow_graceful (buf : List Char) (toks : List Tok)
    (anns : List Annot) (hok : tokOk 0 buf toks = true) :
    chunkText (mergeDecl buf toks anns).1 = buf ∧
    identAnns (mergeDecl buf toks anns).1 =
      anns.take (identCount toks) ∧
    (mergeDecl buf toks anns).2 = anns.drop (identCount toks) := by
  obtain ⟨h1, h2, h3⟩ := mergeLoop_spec buf toks anns 0 [] hok
  exact ⟨by rw [mergeDecl, h1, List.drop_zero]; rfl,
    by rw [mergeDecl, h2]; rfl, by rw [mergeDecl, h3]⟩

/-- C6 witness: merging the printed declaration `func F()` (tokens
`func`, `F`, `(`, `)`) against an empty annotation queue: the
identifier `F` finds the queue empty, the loop stops, and the whole
text is emitted raw. -/
theorem merge_underflow_graceful_witness :
    chunkText (mergeDecl
      ['f', 'u', 'n', 'c', ' ', 'F', '(', ')']
      [⟨0, ['f', 'u', 'n', 'c'], TokKind.other⟩,
       ⟨5, ['F'], TokKind.ident⟩,
       ⟨6, [], TokKind.other⟩, ⟨7, [], TokKind.other⟩] []).1 =
      ['f', 'u', 'n', 'c', ' ', 'F', '(', ')'] ∧
    identAnns (mergeDecl
      ['f', 'u', 'n', 'c', ' ', 'F', '(', ')']
      [⟨0, ['f', 'u', 'n', 'c'], TokKind.other⟩,
       ⟨5, ['F'], TokKind.ident⟩,
       ⟨6, [], TokKind.other⟩, ⟨7, [], TokKind.other⟩] []).1 =
      List.take (identCount
        [⟨0, ['f', 'u', 'n', 'c'], TokKind.other⟩,
         ⟨5, ['F'], TokKind.ident⟩,
         ⟨6, [], TokKind.other⟩, ⟨7, [], TokKind.other⟩]) [] ∧
    (mergeDecl
      ['f', 'u', 'n', 'c', ' ', 'F', '(', ')']
      [⟨0, ['f', 'u', 'n', 'c'], TokKind.other⟩,
       ⟨5, ['F'], TokKind.ident⟩,
       ⟨6, [], TokKind.other⟩, ⟨7, [], TokKind.other⟩] []).2 =
      List.drop (identCount
        [⟨0, ['f', 'u', 'n', 'c'], TokKind.other⟩,
         ⟨5, ['F'], TokKind.ident⟩,
         ⟨6, [], TokKind.other⟩, ⟨7, [], TokKind.other⟩]) [] :=
  merge_underflow_graceful
    ['f', 'u', 'n', 'c', ' ', 'F', '(', ')']
    [⟨0, ['f', 'u', 'n', 'c'], TokKind.other⟩,
     ⟨5, ['F'], TokKind.ident⟩,
     ⟨6, [], TokKind.other⟩, ⟨7, [], TokKind.other⟩] []
    (by decide)

/-- C7: for a selector whose left operand resolves to an imported
package, the annotator emits two `ignore` annotations exactly when
the import path is `"C"`; otherwise it emits the merged
`startLink`/`endLink` pair (both carrying the path) exactly when the
selector position minus the package identifier's end equals one, and
the `packageLink` + `link` pair (both carrying the path) exactly
otherwise. -/
theorem selector_dispatch (path : String) (xEnd selPos : Int)
    (selName : String) :
    (path = "C" →
      (visitExpr (GoExpr.pkgSelector path xEnd selPos selName)).1 =
        [⟨AnnotKind.noAnnot, "", 0⟩, ⟨AnnotKind.noAnnot, "", 0⟩]) ∧
    (path ≠ "C" →
      ((visitExpr (GoExpr.pkgSelector path xEnd selPos selName)).1 =
        [⟨AnnotKind.startLinkAnnot, path, 0⟩,
         ⟨AnnotKind.endLinkAnnot, path, 0⟩] ↔ selPos - xEnd = 1)) ∧
    (path ≠ "C" →
      ((visitExpr (GoExpr.pkgSelector path xEnd selPos selName)).1 =
        [⟨AnnotKind.packageLinkAnnot, path, 0⟩,
         ⟨AnnotKind.linkAnnot, path, 0⟩] ↔ selPos - xEnd ≠ 1)) := by
  refine ⟨?_, ?_, ?_⟩
  · intro hC
    rw [visitExpr, if_pos hC]
  · intro hC
    rw [visitExpr, if_neg hC]
    by_cases hadj : selPos - xEnd = 1
    · rw [if_pos hadj]
      simp [hadj]
    · rw [if_neg hadj]
      simp [hadj]
  · intro hC
    rw [visitExpr, if_neg hC]
    by_cases hadj : selPos - xEnd = 1
    · rw [if_pos hadj]
      simp [hadj]
    · rw [if_neg hadj]
      simp [hadj]

/-- C7 witness: the three dispatch outcomes at concrete inputs —
`fmt.Println` with the dot adjacent (positions 4 and 3), `fmt.Println`
with intervening text (positions 10 and 3), and the pseudo-package
`C`. -/
theorem selector_dispatch_witness :
    (visitExpr (GoExpr.pkgSelector "fmt" 3 4 "Println")).1 =
      [⟨AnnotKind.startLinkAnnot, "fmt", 0⟩,
       ⟨AnnotKind.endLinkAnnot, "fmt", 0⟩] ∧
    (visitExpr (GoExpr.pkgSelector "fmt" 3 10 "Println")).1 =
      [⟨AnnotKind.packageLinkAnnot, "fmt", 0⟩,
       ⟨AnnotKind.linkAnnot, "fmt", 0⟩] ∧
    (visitExpr (GoExpr.pkgSelector "C" 3 4 "f")).1 =
      [⟨AnnotKind.noAnnot, "", 0⟩, ⟨AnnotKind.noAnnot, "", 0⟩] :=
  ⟨((selector_dispatch "fmt" 3 4 "Println").2.1 (by decide)).mpr
      (by decide),
   ((selector_dispatch "fmt" 3 10 "Println").2.2 (by decide)).mpr
      (by decide),
   (selector_dispatch "C" 3 4 "f").1 rfl⟩

/-- C3: on a failing page render (`printDoc` returns a nil doc and an
error) the buffer-read handler calls `Display` with the nil doc —
`Display` dereferences it and panics — and the page whose text is the
error message is never published: the inner `d := doc.NewDoc()`
shadows the outer `d`, so the error page the claim (and the spec's
intent, implemented correctly by the older handlers in
`src/unnamed/part_006` lines 906-918) describes is discarded. -/
theorem onBufReadCmd_render_failure (e : String) :
    onBufReadCmd none (some e) = DisplayResult.nilPanic ∧
    onBufReadCmd none (some e) ≠ DisplayResult.published e := by
  refine ⟨rfl, ?_⟩
  intro h
  cases h

end Vigor
